import Mathlib

/-!
Verification of the storage-engine core of df-bustub against its
specification.  The C++ sources are shallowly embedded: machine integers
become `Nat`/`Int`, fixed C arrays become lists addressed through total
read/write helpers that keep stale slots visible (the sources routinely
leave stale data behind a size field), `std::shared_ptr` aliasing becomes
indirection through numeric identifiers, and the few header-only helpers
whose bodies are not among the provided sources are modelled from the
specification and marked as such in their doc comments.
-/

namespace BusTub

/-! ### Physical array helpers

The page classes index raw C arrays.  `aget`/`aset` give those arrays a
total semantics: reads past the written region return `default` (standing
for bytes the program never wrote), writes extend the list as needed.
Slots between the size field and the end of the written region keep
whatever was last stored there, exactly like the source's arrays. -/

def aget [Inhabited α] (l : List α) (i : Nat) : α := l.getD i default

def aset [Inhabited α] (l : List α) (i : Nat) (v : α) : List α :=
  if i < l.length then l.set i v
  else l ++ List.replicate (i - l.length) default ++ [v]

/-! ### Extendible hash table
From src/container/hash/extendible_hash_table.cpp.  Keys and values are
`Nat`; for the `int` instantiations used by the repository's tests
`std::hash<int>` is the identity, so hashing a key is the key itself.
`dir_` holds `shared_ptr<Bucket>`; the model keeps a directory of bucket
identifiers plus an association list from identifier to bucket so that
several directory slots can alias one bucket, as in the source. -/

structure Bucket where
  items : List (Nat × Nat)
  depth : Nat
  deriving Repr, DecidableEq, Inhabited

def bucketContains (items : List (Nat × Nat)) (key : Nat) : Bool :=
  items.any (fun p => p.1 == key)

/-- Bucket::Find: scan for the first pair with the given key. -/
def bucketFind (items : List (Nat × Nat)) (key : Nat) : Option Nat :=
  match items with
  | [] => none
  | p :: rest => if p.1 == key then some p.2 else bucketFind rest key

/-- Bucket::Insert.  The scan loop copies each pair (`std::pair p = *it`)
and assigns the new value to that copy, so finding the key returns true
while leaving the stored list unchanged; otherwise a full bucket refuses
and a non-full bucket appends. -/
def bucketInsert (size : Nat) (items : List (Nat × Nat)) (key value : Nat) :
    Bool × List (Nat × Nat) :=
  if bucketContains items key then (true, items)
  else if size ≤ items.length then (false, items)
  else (true, items ++ [(key, value)])

structure EHT where
  globalDepth : Nat
  bucketSize : Nat
  numBuckets : Nat
  dir : List Nat
  buckets : List (Nat × Bucket)
  nextId : Nat
  deriving Repr, DecidableEq, Inhabited

/-- The constructor: one empty bucket of depth 0, directory of length 1. -/
def EHT.new (bucketSize : Nat) : EHT :=
  { globalDepth := 0, bucketSize := bucketSize, numBuckets := 1,
    dir := [0], buckets := [(0, Bucket.mk [] 0)], nextId := 1 }

def EHT.bucketAt (t : EHT) (bid : Nat) : Bucket :=
  ((t.buckets.find? (fun p => p.1 == bid)).map (·.2)).getD default

def EHT.setBucket (t : EHT) (bid : Nat) (b : Bucket) : EHT :=
  { t with buckets := t.buckets.map (fun p => if p.1 == bid then (bid, b) else p) }

/-- Directory slot read (`dir_[idx]`), as a bucket identifier. -/
def EHT.dirAt (t : EHT) (idx : Nat) : Nat := t.dir.getD idx 0

/-- IndexOf: `hash(key) & ((1 << global_depth) - 1)` with identity hash. -/
def EHT.indexOf (t : EHT) (key : Nat) : Nat := key &&& (2 ^ t.globalDepth - 1)

/-- Rehash loop of RedistributeBucket: walk the old bucket's list; items
whose hash masked to the new depth equals `n_idx` are inserted into the
new bucket (the result of that insert is ignored, as in the source) and
erased from the old list. -/
def rehashItems (bucketSize : Nat) (nIdx newMask : Nat) :
    List (Nat × Nat) → List (Nat × Nat) → List (Nat × Nat) →
    List (Nat × Nat) × List (Nat × Nat)
  | [], keep, moved => (keep, moved)
  | p :: rest, keep, moved =>
    if p.1 &&& newMask == nIdx then
      let (_, moved') := bucketInsert bucketSize moved p.1 p.2
      rehashItems bucketSize nIdx newMask rest keep moved'
    else
      rehashItems bucketSize nIdx newMask rest (keep ++ [p]) moved

/-- RedistributeBucket(idx, bucket): note that the companion slot
`n_idx = idx | (1 << depth)` is computed from the full directory index of
the failed insert and the bucket's pre-increment depth, and that only the
single slot `n_idx` is made to point at the new bucket. -/
def EHT.redistribute (t : EHT) (idx bid : Nat) : EHT :=
  let b := t.bucketAt bid
  let nIdx := idx ||| 2 ^ b.depth
  let b := { b with depth := b.depth + 1 }
  let t := t.setBucket bid b
  let t :=
    if t.globalDepth < b.depth then
      let oldMask := 2 ^ t.globalDepth - 1
      let newNum := t.numBuckets <<< 1
      let ext := ((List.range newNum).drop t.numBuckets).map
        (fun n => t.dirAt (n &&& oldMask))
      { t with globalDepth := t.globalDepth + 1, numBuckets := newNum,
               dir := t.dir ++ ext }
    else t
  let newBid := t.nextId
  let t := { t with dir := t.dir.set nIdx newBid,
                    buckets := t.buckets ++ [(newBid, Bucket.mk [] b.depth)],
                    nextId := t.nextId + 1 }
  let (keep, moved) := rehashItems t.bucketSize nIdx (2 ^ b.depth - 1) b.items [] []
  let t := t.setBucket bid { b with items := keep }
  t.setBucket newBid (Bucket.mk moved b.depth)

/-- Insert's retry loop (`while (!bucket->Insert(...))`), with fuel in
place of the source's unbounded loop; the fuel is ample for every run
considered here. -/
def EHT.insertFuel : Nat → EHT → Nat → Nat → EHT
  | 0, t, _, _ => t
  | fuel + 1, t, key, value =>
    let idx := t.indexOf key
    let bid := t.dirAt idx
    let b := t.bucketAt bid
    let (ok, items') := bucketInsert t.bucketSize b.items key value
    if ok then t.setBucket bid { b with items := items' }
    else EHT.insertFuel fuel (t.redistribute idx bid) key value

def EHT.insert (t : EHT) (key value : Nat) : EHT :=
  EHT.insertFuel 64 t key value

/-- Find: hash to a directory slot, search that bucket only. -/
def EHT.find (t : EHT) (key : Nat) : Option Nat :=
  bucketFind (t.bucketAt (t.dirAt (t.indexOf key))).items key

def EHT.insertSeq (t : EHT) (kvs : List (Nat × Nat)) : EHT :=
  kvs.foldl (fun t p => t.insert p.1 p.2) t

/-! ### LRU-K replacer
From src/buffer/lru_k_replacer.cpp.  `young` is `cache_queue_[0]` (frames
with fewer than K recorded accesses), `mature` is `cache_queue_[1]`.  A
queue entry is a `Query`, a (frame id, timestamp) pair; timestamps come
from the monotonic counter `curr_time_`. -/

/-- A queue entry: frame identifier and access timestamp. -/
abbrev RQuery := Nat × Nat

structure RState where
  k : Nat
  numFrames : Nat
  evictable : List Bool
  counter : List Nat
  young : List RQuery
  mature : List RQuery
  currTime : Nat
  currSize : Nat
  deriving Repr, DecidableEq, Inhabited

def RState.init (numFrames k : Nat) : RState :=
  { k := k, numFrames := numFrames,
    evictable := List.replicate numFrames false,
    counter := List.replicate numFrames 0,
    young := [], mature := [], currTime := 0, currSize := 0 }

def RState.evGet (s : RState) (f : Nat) : Bool := s.evictable.getD f false

def RState.ctGet (s : RState) (f : Nat) : Nat := s.counter.getD f 0

/-- SetEvictable: adjust the flag and the evictable count atomically. -/
def RState.setEvictable (s : RState) (f : Nat) (b : Bool) : RState :=
  if b = s.evGet f then s
  else { s with currSize := if b then s.currSize + 1 else s.currSize - 1,
                evictable := s.evictable.set f b }

/-- Relation ordering queue entries by timestamp.  `Query::operator<` is
declared in the header (not among the provided sources); the spec's FIFO
timestamp queues fix its meaning as comparison of `query_time_`. -/
def timeLE (a b : RQuery) : Prop := a.2 ≤ b.2

instance : DecidableRel timeLE := fun a b => Nat.decLe a.2 b.2

instance : IsTotal RQuery timeLE := ⟨fun a b => Nat.le_total a.2 b.2⟩

instance : IsTrans RQuery timeLE := ⟨fun _ _ _ h h' => Nat.le_trans h h'⟩

instance : IsRefl RQuery timeLE := ⟨fun a => Nat.le_refl a.2⟩

/-- CacheUpgrade: move every young entry of the frame to the mature queue
(appending, then sorting the mature queue by timestamp; `std::list::sort`
is a stable sort, as is `List.insertionSort`). -/
def RState.cacheUpgrade (s : RState) (f : Nat) : RState :=
  let moved := s.young.filter (fun e => e.1 == f)
  { s with young := s.young.filter (fun e => e.1 != f),
           mature := List.insertionSort timeLE (s.mature ++ moved) }

/-- Erase the first queue entry of the given frame (the erase-and-return
loop at the end of RecordAccess). -/
def eraseFirstFrame : List RQuery → Nat → List RQuery
  | [], _ => []
  | e :: rest, f => if e.1 = f then rest else e :: eraseFirstFrame rest f

/-- RecordAccess: bump the access counter; on reaching K migrate the
frame's young entries to mature; append a fresh stamp to the appropriate
queue; past K, cap the counter at K and drop the frame's oldest mature
entry. -/
def RState.recordAccess (s : RState) (f : Nat) : RState :=
  let c := s.ctGet f + 1
  let s := { s with counter := s.counter.set f c }
  if c = s.k then
    let s := s.cacheUpgrade f
    { s with mature := s.mature ++ [(f, s.currTime)], currTime := s.currTime + 1 }
  else if s.k < c then
    let s := { s with mature := s.mature ++ [(f, s.currTime)],
                      currTime := s.currTime + 1,
                      counter := s.counter.set f s.k }
    { s with mature := eraseFirstFrame s.mature f }
  else
    { s with young := s.young ++ [(f, s.currTime)], currTime := s.currTime + 1 }

/-- Remove: purge the frame's entries from the queue selected by its
access counter, reset the counter and the evictable flag. -/
def RState.remove (s : RState) (f : Nat) : RState :=
  let s :=
    if s.k ≤ s.ctGet f then { s with mature := s.mature.filter (fun e => e.1 ≠ f) }
    else { s with young := s.young.filter (fun e => e.1 ≠ f) }
  let s := { s with counter := s.counter.set f 0 }
  s.setEvictable f false

/-- The scan inside Evict over one queue: find the first entry whose frame
is evictable; from that position on, erase every entry of that frame
(entries before it belong to non-evictable frames and are kept). -/
def evictScan (ev : Nat → Bool) : List RQuery → Option (Nat × List RQuery)
  | [] => none
  | e :: rest =>
    if ev e.1 then some (e.1, rest.filter (fun x => x.1 ≠ e.1))
    else
      match evictScan ev rest with
      | none => none
      | some (f, q) => some (f, e :: q)

/-- Evict: scan the young queue, then the mature queue; on success clear
the victim's counter and evictable flag. -/
def RState.evict (s : RState) : Option Nat × RState :=
  match evictScan (fun f => s.evGet f) s.young with
  | some (f, q) =>
    let s1 := { s with young := q, counter := s.counter.set f 0 }
    (some f, s1.setEvictable f false)
  | none =>
    match evictScan (fun f => s.evGet f) s.mature with
    | some (f, q) =>
      let s1 := { s with mature := q, counter := s.counter.set f 0 }
      (some f, s1.setEvictable f false)
    | none => (none, s)

/-- The replacer's public calls, for stating reachability. -/
inductive ROp where
  | record (f : Nat)
  | setEv (f : Nat) (b : Bool)
  | remove (f : Nat)
  | evict
  deriving Repr, DecidableEq

/-- One public call.  RecordAccess, SetEvictable and Remove each open
with `BUSTUB_ASSERT(frame_id < replacer_size_)`; a call violating it
aborts the program, so such a call produces no reachable state — modelled
by leaving the state unchanged. -/
def RState.applyOp (s : RState) : ROp → RState
  | .record f => if f < s.numFrames then s.recordAccess f else s
  | .setEv f b => if f < s.numFrames then s.setEvictable f b else s
  | .remove f => if f < s.numFrames then s.remove f else s
  | .evict => s.evict.2

def RState.applyOps (s : RState) (ops : List ROp) : RState :=
  ops.foldl RState.applyOp s

/-- Queue-confinement invariant: every young entry belongs to a frame
with fewer than K counted accesses, every mature entry to a frame with at
least K.  It holds in every reachable state and is what guarantees that a
frame's entries live in exactly one queue. -/
def RState.Confined (s : RState) : Prop :=
  (∀ e ∈ s.young, s.ctGet e.1 < s.k) ∧ (∀ e ∈ s.mature, s.k ≤ s.ctGet e.1)

/-- Timestamp sanity: both queues are sorted by timestamp and all stamps
are below the current clock. -/
def RState.TimeSorted (s : RState) : Prop :=
  s.young.Sorted timeLE ∧ s.mature.Sorted timeLE ∧
  (∀ e ∈ s.young, e.2 < s.currTime) ∧ (∀ e ∈ s.mature, e.2 < s.currTime)

/-- The well-formedness invariant of reachable replacer states: the flag
and counter vectors keep their constructed length, entries are confined
to the queue their counter dictates, and queues are FIFO in time. -/
def RState.WF (s : RState) : Prop :=
  s.counter.length = s.numFrames ∧ s.evictable.length = s.numFrames ∧
  s.Confined ∧ s.TimeSorted

/-! ### Buffer pool manager
From src/buffer/buffer_pool_manager_instance.cpp, generic over the page
payload `D` (the 4 KiB byte buffer `Page::data_`).  `pageId = -1` is
`INVALID_PAGE_ID`.  The page table is an
`ExtendibleHashTable<page_id_t, frame_id_t>`; since the buffer pool only
ever inserts fresh keys and looks up or removes existing ones, it is
modelled as an association list whose operations mirror the table's
observable Find/Insert/Remove behaviour (first-match lookup and erase,
append on insert).  The disk manager is a page-id-indexed store plus a
log of every WritePage call, so that "the bytes were written to disk"
is directly statable. -/

structure BPage (D : Type) where
  pageId : Int
  pinCount : Nat
  isDirty : Bool
  data : D
  deriving Repr, DecidableEq

instance [Inhabited D] : Inhabited (BPage D) := ⟨⟨-1, 0, false, default⟩⟩

def ptFind (pt : List (Int × Nat)) (pid : Int) : Option Nat :=
  (pt.find? (fun e => e.1 == pid)).map (·.2)

def ptRemove : List (Int × Nat) → Int → List (Int × Nat)
  | [], _ => []
  | e :: rest, pid => if e.1 = pid then rest else e :: ptRemove rest pid

def ptInsert (pt : List (Int × Nat)) (pid : Int) (fid : Nat) : List (Int × Nat) :=
  if (ptFind pt pid).isSome then pt else pt ++ [(pid, fid)]

def assocSet [BEq κ] (l : List (κ × α)) (k : κ) (v : α) : List (κ × α) :=
  if l.any (fun e => e.1 == k) then
    l.map (fun e => if e.1 == k then (k, v) else e)
  else l ++ [(k, v)]

structure BPM (D : Type) where
  poolSize : Nat
  pages : List (BPage D)
  pageTable : List (Int × Nat)
  freeList : List Nat
  replacer : RState
  disk : List (Int × D)
  writes : List (Int × D)
  nextPageId : Int
  deriving Repr, DecidableEq

variable {D : Type} [Inhabited D] [DecidableEq D]

def BPM.pageAt (s : BPM D) (fid : Nat) : BPage D := s.pages.getD fid default

def BPM.setPage (s : BPM D) (fid : Nat) (pg : BPage D) : BPM D :=
  { s with pages := s.pages.set fid pg }

/-- DiskManager::ReadPage (never-written pages read as zeroed bytes). -/
def BPM.diskRead (s : BPM D) (pid : Int) : D :=
  (((s.disk.find? (fun e => e.1 == pid)).map (·.2))).getD default

/-- DiskManager::WritePage, also appended to the write log. -/
def BPM.diskWrite (s : BPM D) (pid : Int) (d : D) : BPM D :=
  { s with disk := assocSet s.disk pid d, writes := s.writes ++ [(pid, d)] }

/-- FlushPgImp: look the page up; on a hit write its bytes out and clear
the dirty flag, on a miss return false without touching the disk. -/
def BPM.flushPgImp (s : BPM D) (pid : Int) : Bool × BPM D :=
  match ptFind s.pageTable pid with
  | none => (false, s)
  | some fid =>
    let pg := s.pageAt fid
    let s := s.diskWrite pid pg.data
    (true, s.setPage fid { pg with isDirty := false })

/-- GetEmptyPage: pop the free list if possible; otherwise evict a victim
frame and remove the victim's page-table entry.  Nothing is written to
disk on this path. -/
def BPM.getEmptyPage (s : BPM D) : Option Nat × BPM D :=
  match s.freeList with
  | fid :: rest => (some fid, { s with freeList := rest })
  | [] =>
    match s.replacer.evict with
    | (none, r') => (none, { s with replacer := r' })
    | (some fid, r') =>
      let s := { s with replacer := r' }
      let pg := s.pageAt fid
      (some fid, { s with pageTable := ptRemove s.pageTable pg.pageId })

/-- ResetPage: if the frame is dirty attempt a flush (which silently does
nothing when the page id is no longer in the page table), then zero the
frame. -/
def BPM.resetPage (s : BPM D) (fid : Nat) : BPM D :=
  let pg := s.pageAt fid
  let s := if pg.isDirty then (s.flushPgImp pg.pageId).2 else s
  s.setPage fid { pageId := -1, pinCount := 0, isDirty := false, data := default }

/-- AllocatePage: monotonically increasing page ids. -/
def BPM.allocatePage (s : BPM D) : Int × BPM D :=
  (s.nextPageId, { s with nextPageId := s.nextPageId + 1 })

/-- NewPgImp: returns (page id, frame) on success. -/
def BPM.newPgImp (s : BPM D) : Option (Int × Nat) × BPM D :=
  match s.getEmptyPage with
  | (none, s) => (none, s)
  | (some fid, s) =>
    let s := s.resetPage fid
    let (pid, s) := s.allocatePage
    let s := { s with pageTable := ptInsert s.pageTable pid fid }
    let s := { s with replacer := s.replacer.recordAccess fid }
    let pg := s.pageAt fid
    (some (pid, fid), s.setPage fid { pg with pinCount := 1, pageId := pid })

/-- FetchPgImp: on a hit bump the pin count; on a miss obtain a frame (no
reset), read the bytes from disk, install the mapping, bump the pin
count.  The victim frame's dirty flag and pin count carry over. -/
def BPM.fetchPgImp (s : BPM D) (pid : Int) : Option Nat × BPM D :=
  match ptFind s.pageTable pid with
  | some fid =>
    let pg := s.pageAt fid
    let s := s.setPage fid { pg with pinCount := pg.pinCount + 1 }
    (some fid, { s with replacer := s.replacer.recordAccess fid })
  | none =>
    match s.getEmptyPage with
    | (none, s) => (none, s)
    | (some fid, s) =>
      let pg := s.pageAt fid
      let s := s.setPage fid { pg with data := s.diskRead pid, pageId := pid }
      let s := { s with pageTable := ptInsert s.pageTable pid fid }
      let pg2 := s.pageAt fid
      let s := s.setPage fid { pg2 with pinCount := pg2.pinCount + 1 }
      (some fid, { s with replacer := s.replacer.recordAccess fid })

/-- UnpinPgImp: a miss fails; with `is_dirty` set the page is flushed
immediately (FlushPgImp writes it out and clears the dirty flag); a pin
count already at zero fails; otherwise the pin count is decremented and,
on reaching zero, the frame is marked evictable. -/
def BPM.unpinPgImp (s : BPM D) (pid : Int) (dirty : Bool) : Bool × BPM D :=
  match ptFind s.pageTable pid with
  | none => (false, s)
  | some fid =>
    let s := if dirty then (s.flushPgImp pid).2 else s
    let pg := s.pageAt fid
    if pg.pinCount = 0 then (false, s)
    else
      let pin' := pg.pinCount - 1
      let s := s.setPage fid { pg with pinCount := pin' }
      if pin' = 0 then (true, { s with replacer := s.replacer.setEvictable fid true })
      else (true, s)

/-- DeallocatePage: reset the frame (flushing it first if dirty), return
the frame to the free list, purge the replacer entry and the page-table
mapping. -/
def BPM.deallocatePage (s : BPM D) (pid : Int) : BPM D :=
  match ptFind s.pageTable pid with
  | none => s
  | some fid =>
    let s := s.resetPage fid
    let s := { s with freeList := s.freeList ++ [fid] }
    let s := { s with replacer := s.replacer.remove fid }
    { s with pageTable := ptRemove s.pageTable pid }

/-- DeletePgImp: a non-resident page succeeds trivially; a pinned page is
refused with no effect; otherwise the page is deallocated — and the
source then returns false on that path as well. -/
def BPM.deletePgImp (s : BPM D) (pid : Int) : Bool × BPM D :=
  match ptFind s.pageTable pid with
  | none => (true, s)
  | some fid =>
    if 0 < (s.pageAt fid).pinCount then (false, s)
    else (false, s.deallocatePage pid)

/-! ### B+Tree pages
From src/storage/page/b_plus_tree_leaf_page.cpp and
b_plus_tree_internal_page.cpp.  Keys and leaf values are `Nat`, child
references are page ids (`Int`).  A node carries its physical entry array
(which may retain stale slots past `size`), the size field, and the
header fields the algorithms consult. -/

/-- GenericComparator: negative, zero or positive. -/
def cmpK (a b : Nat) : Int := if a < b then -1 else if a = b then 0 else 1

inductive BNode where
  | leaf (arr : List (Nat × Nat)) (size : Nat) (next : Int) (parent : Int)
      (pid : Int) (maxSize : Nat)
  | internal (arr : List (Nat × Int)) (size : Nat) (parent : Int)
      (pid : Int) (maxSize : Nat)
  deriving Repr, DecidableEq

instance : Inhabited BNode := ⟨.leaf [] 0 (-1) (-1) (-1) 0⟩

def BNode.getSize : BNode → Nat
  | .leaf _ n _ _ _ _ => n
  | .internal _ n _ _ _ => n

def BNode.getMaxSize : BNode → Nat
  | .leaf _ _ _ _ _ m => m
  | .internal _ _ _ _ m => m

def BNode.parentId : BNode → Int
  | .leaf _ _ _ p _ _ => p
  | .internal _ _ p _ _ => p

def BNode.pageId : BNode → Int
  | .leaf _ _ _ _ i _ => i
  | .internal _ _ _ i _ => i

def BNode.isLeafPage : BNode → Bool
  | .leaf .. => true
  | .internal .. => false

/-- KeyAt, on either node shape. -/
def BNode.keyAt : BNode → Nat → Nat
  | .leaf arr _ _ _ _ _, i => (aget arr i).1
  | .internal arr _ _ _ _, i => (aget arr i).1

/-- Internal ValueAt: the child page id stored at an index. -/
def BNode.childAt : BNode → Nat → Int
  | .internal arr _ _ _ _, i => (aget arr i).2
  | .leaf .., _ => -1

def BNode.intArr : BNode → List (Nat × Int)
  | .internal arr _ _ _ _ => arr
  | .leaf .. => []

/-- SetKeyAt: overwrite the key component of one slot. -/
def BNode.setKeyAt : BNode → Nat → Nat → BNode
  | .leaf arr n x p i m, idx, k => .leaf (aset arr idx (k, (aget arr idx).2)) n x p i m
  | .internal arr n p i m, idx, k => .internal (aset arr idx (k, (aget arr idx).2)) n p i m

def BNode.setParent : BNode → Int → BNode
  | .leaf arr n x _ i m, p => .leaf arr n x p i m
  | .internal arr n _ i m, p => .internal arr n p i m

/-- Modelled from the spec: `BPlusTreePage::IsRootPage` is declared in a
header that is not among the provided sources; a node is the root iff its
parent id is `INVALID_PAGE_ID` (§3's parent-pointer invariant). -/
def BNode.isRootPage (n : BNode) : Bool := n.parentId == -1

/-- Modelled from the spec: `BPlusTreePage::IsFull` is not among the
provided sources; §4.E makes a node INSERT-safe iff `size < max_size`,
so a node is full iff `max_size ≤ size`. -/
def BNode.isFull (n : BNode) : Bool := n.getMaxSize ≤ n.getSize

/-- Modelled from the spec: `GetMinSize() = ⌈max_size/2⌉` (§4.D). -/
def BNode.minSize (n : BNode) : Nat := (n.getMaxSize + 1) / 2

/-- The scan loop of Exist: advance while in range and the probe key is
less than the stored key (note the comparison direction: over an
ascending array this stops at index 0 whenever `keyAt 0 ≤ key`).  The
`idx < size` bound is carried as the count of remaining slots, keeping
the recursion structural. -/
def leafScanLT (arr : List (Nat × Nat)) (key : Nat) : Nat → Nat → Nat
  | idx, 0 => idx
  | idx, n + 1 =>
    if cmpK key (aget arr idx).1 < 0 then leafScanLT arr key (idx + 1) n
    else idx

/-- BPlusTreeLeafPage::Exist. -/
def leafExist (arr : List (Nat × Nat)) (size key : Nat) : Bool :=
  let idx := leafScanLT arr key 0 size
  idx != size && cmpK key (aget arr idx).1 == 0

/-- The scan loop of GetValue: advance while in range and the probe key
is greater than the stored key.  The index it returns can equal `size`;
GetValue then compares against the slot at that index anyway. -/
def leafScanGT (arr : List (Nat × Nat)) (key : Nat) : Nat → Nat → Nat
  | idx, 0 => idx
  | idx, n + 1 =>
    if 0 < cmpK key (aget arr idx).1 then leafScanGT arr key (idx + 1) n
    else idx

/-- The shift loop of leaf Insert: walk down from `size - 1`, copying
entries one slot right while the new key is smaller; returns the updated
array and the slot for the new pair. -/
def leafInsertShift (key : Nat) : List (Nat × Nat) → Nat → List (Nat × Nat) × Nat
  | arr, 0 => (arr, 0)
  | arr, n + 1 =>
    if cmpK key (aget arr n).1 < 0 then
      leafInsertShift key (aset arr (n + 1) (aget arr n)) n
    else (arr, n + 1)

/-- BPlusTreeLeafPage::Insert: insertion sort step; always succeeds. -/
def leafInsert (arr : List (Nat × Nat)) (size key value : Nat) :
    List (Nat × Nat) × Nat :=
  let (arr, pos) := leafInsertShift key arr size
  (aset arr pos (key, value), size + 1)

def BNode.leafInsertN : BNode → Nat → Nat → BNode
  | .leaf arr n x p i m, key, value =>
    let (arr, n) := leafInsert arr n key value
    .leaf arr n x p i m
  | n, _, _ => n

/-- Sequential copy of slots `[lo, hi)` into a fresh array. -/
def copyRange [Inhabited α] (arr : List α) (lo hi : Nat) : List α :=
  (List.range (hi - lo)).map (fun j => aget arr (lo + j))

/-- BPlusTreeLeafPage::InsertAndSplit.  The pivot is the source's
`int pivot = (GetSize() - 1) > 1;` — a comparison, so the pivot is 1
whenever the page holds more than two entries and 0 otherwise.  Entries
from the pivot on move to the new page, the new pair goes to whichever
half its ordering dictates, and the sibling pointers are relinked. -/
def leafInsertAndSplit (old nw : BNode) (key value : Nat) : BNode × BNode :=
  match old, nw with
  | .leaf arr size next parent pid maxSize, .leaf _ _ _ nparent npid nmax =>
    let pivot : Nat := if 1 < size - 1 then 1 else 0
    let pivotKey := (aget arr pivot).1
    if 0 < cmpK key pivotKey then
      let newArr := copyRange arr (pivot + 1) size
      let (newArr, nsize) := leafInsert newArr (size - (pivot + 1)) key value
      (.leaf arr (pivot + 1) npid parent pid maxSize,
       .leaf newArr nsize next nparent npid nmax)
    else
      let newArr := copyRange arr pivot size
      let (arr2, osize) := leafInsert arr pivot key value
      (.leaf arr2 osize npid parent pid maxSize,
       .leaf newArr (size - pivot) next nparent npid nmax)
  | _, _ => (old, nw)

/-- Left-shift loop shared by the Delete routines: for `i` from the
given start while `i < size`, copy slot `i` into slot `i - 1` — here with
`size - i` carried as a structural count.  The last live slot keeps its
old contents, turning stale. -/
def shiftLeftLoop [Inhabited α] : List α → Nat → Nat → List α
  | arr, _, 0 => arr
  | arr, i, n + 1 => shiftLeftLoop (aset arr (i - 1) (aget arr i)) (i + 1) n

/-- BPlusTreeInternalPage::Delete(idx): shift left from `idx + 1` and
decrement the size (the source sets it from the loop's final index). -/
def internalDelete (arr : List (Nat × Int)) (size idx : Nat) :
    List (Nat × Int) × Nat :=
  (shiftLeftLoop arr (idx + 1) (size - (idx + 1)),
   if idx < size then size - 1 else idx)

/-- Find the first live slot holding the key, if any. -/
def leafFindEq (arr : List (Nat × Nat)) (key : Nat) : Nat → Nat → Option Nat
  | _, 0 => none
  | idx, n + 1 =>
    if cmpK key (aget arr idx).1 = 0 then some idx
    else leafFindEq arr key (idx + 1) n

/-- Modelled from the spec: `BPlusTreeLeafPage::Delete(key, cmp)` is
called by BPlusTree::Remove but its body is not among the provided
sources; §4.D describes it as "remove and shift".  It mirrors the shift
loop of `BPlusTreeInternalPage::Delete`, which is in the sources: entries
after the hit move left one slot and the size drops by one, leaving the
last physical slot stale.  A missing key changes nothing. -/
def leafDeleteKey (arr : List (Nat × Nat)) (size key : Nat) :
    List (Nat × Nat) × Nat :=
  match leafFindEq arr key 0 size with
  | none => (arr, size)
  | some idx => (shiftLeftLoop arr (idx + 1) (size - (idx + 1)), size - 1)

/-- Modelled from the spec: the index-based `Delete(0)` used by the
borrow-from-right paths is likewise header-only; it mirrors
`BPlusTreeInternalPage::Delete`. -/
def leafDeleteAt (arr : List (Nat × Nat)) (size idx : Nat) :
    List (Nat × Nat) × Nat :=
  (shiftLeftLoop arr (idx + 1) (size - (idx + 1)),
   if idx < size then size - 1 else idx)

/-- The shift loop of internal Insert: like the leaf loop but it stops at
index 1, so slot 0 (the ghost-key child) is never displaced. -/
def internalInsertShift (key : Nat) : List (Nat × Int) → Nat → List (Nat × Int) × Nat
  | arr, 0 => (arr, 0)
  | arr, n + 1 =>
    if cmpK key (aget arr (n + 1)).1 < 0 then
      internalInsertShift key (aset arr (n + 2) (aget arr (n + 1))) n
    else (arr, n + 1)

/-- BPlusTreeInternalPage::Insert.  For a non-empty page the shift loop
starts at `size - 1` and the new entry lands one past where it stops; an
empty page receives the entry at slot 0. -/
def internalInsert (arr : List (Nat × Int)) (size : Nat) (key : Nat) (child : Int) :
    List (Nat × Int) × Nat :=
  if size = 0 then (aset arr 0 (key, child), 1)
  else
    let (arr, stop) := internalInsertShift key arr (size - 1)
    (aset arr (stop + 1) (key, child), size + 1)

def BNode.internalInsertN : BNode → Nat → Int → BNode
  | .internal arr n p i m, key, child =>
    let (arr, n) := internalInsert arr n key child
    .internal arr n p i m
  | n, _, _ => n

/-- BPlusTreeInternalPage::InsertAndSplit: pivot `size / 2 + 1`; entries
from the pivot (or pivot−1) move to the new page; returns both pages and
`new_array[0].first`, the separator pushed upward. -/
def internalInsertAndSplit (old nw : BNode) (key : Nat) (child : Int) :
    BNode × BNode × Nat :=
  match old, nw with
  | .internal arr size parent pid maxSize, .internal _ _ nparent npid nmax =>
    let pivot := size / 2 + 1
    if 0 < cmpK key (aget arr pivot).1 then
      let newArr := copyRange arr pivot size
      let (newArr, nsize) := internalInsert newArr (size - pivot) key child
      (.internal arr pivot parent pid maxSize,
       .internal newArr nsize nparent npid nmax,
       (aget newArr 0).1)
    else
      let newArr := copyRange arr (pivot - 1) size
      let (arr2, osize) := internalInsert arr (pivot - 1) key child
      (.internal arr2 osize parent pid maxSize,
       .internal newArr (size - (pivot - 1)) nparent npid nmax,
       (aget newArr 0).1)
  | _, _ => (old, nw, 0)

/-- The merge-with-left copy loop (LeafMerge/InternalMerge, left case):
for each live destination slot, first copy it `srcSize` slots to the
right, then overwrite it with the sibling's entry — sequentially, so
later iterations see earlier writes.  When `srcSize` exceeds the live
count, middle slots are left holding whatever was there before.  The
final argument is the count of remaining iterations. -/
def mergePrependLoop [Inhabited α] (src : List α) (srcSize : Nat) :
    List α → Nat → Nat → List α
  | a, _, 0 => a
  | a, i, n + 1 =>
    mergePrependLoop src srcSize
      (aset (aset a (i + srcSize) (aget a i)) i (aget src i)) (i + 1) n

/-- The merge-with-right copy loop: append the sibling's live entries
after the current ones. -/
def mergeAppendLoop [Inhabited α] (src : List α) (base : Nat) :
    List α → Nat → Nat → List α
  | a, _, 0 => a
  | a, i, n + 1 =>
    mergeAppendLoop src base (aset a (base + i) (aget src i)) (i + 1) n

/-! ### B+Tree index
From src/storage/index/b_plus_tree.cpp.  Pages live in a page-id-indexed
store; fetching and unpinning are store reads and writes (the latch and
pin traffic has no effect on the sequential functional state; the
buffer-pool interaction of LeafMerge's DeletePage call is analysed
separately on the `BPM` model).  The scratchpad is the transaction's
page set with the head as its back; `none` is the `BEFORE_ROOT_PAGE`
sentinel. -/

structure Tree where
  store : List (Int × BNode)
  root : Int
  nextPid : Int
  leafMax : Nat
  internalMax : Nat
  deriving Repr, DecidableEq

def Tree.empty (leafMax internalMax : Nat) : Tree :=
  { store := [], root := -1, nextPid := 1, leafMax := leafMax,
    internalMax := internalMax }

def Tree.get (t : Tree) (pid : Int) : BNode :=
  (((t.store.find? (fun e => e.1 == pid)).map (·.2))).getD default

def Tree.set (t : Tree) (pid : Int) (n : BNode) : Tree :=
  { t with store := assocSet t.store pid n }

def Tree.fuel (t : Tree) : Nat := t.store.length + 1

/-- The child-selection scan of FindLeafPage: `i` starts at 1 and, when
the page has more than one entry, advances while the probe key is at
least the separator (with `size - i` as a structural count); the child
taken is at `i - 1`. -/
def childScanLoop (arr : List (Nat × Int)) (key : Nat) : Nat → Nat → Nat
  | i, 0 => i
  | i, n + 1 =>
    if 0 ≤ cmpK key (aget arr i).1 then childScanLoop arr key (i + 1) n
    else i

def BNode.childFor (n : BNode) (key : Nat) : Int :=
  match n with
  | .internal arr size _ _ _ =>
    let i := if 1 < size then childScanLoop arr key 1 (size - 1) else 1
    (aget arr (i - 1)).2
  | .leaf .. => -1

/-- FindLeafPage in READ mode: plain hand-over-hand descent. -/
def Tree.findLeafRead (t : Tree) (key : Nat) : Nat → Int → Int
  | 0, pid => pid
  | fuel + 1, pid =>
    match t.get pid with
    | .leaf .. => pid
    | n => t.findLeafRead key fuel (n.childFor key)

/-- FindLeafPage in INSERT/DELETE mode: at each internal node, if the
node is safe for the operation (INSERT: not full; DELETE: size above
`(max_size + 1) / 2`), release every recorded ancestor down to the
`BEFORE_ROOT` marker, then record the node and descend. -/
def Tree.findLeafMode (t : Tree) (key : Nat) (isIns : Bool) :
    Nat → Int → List (Option Int) → Int × List (Option Int)
  | 0, pid, sc => (pid, sc)
  | fuel + 1, pid, sc =>
    match t.get pid with
    | .leaf .. => (pid, sc)
    | .internal arr size parent npid maxSize =>
      let nd := BNode.internal arr size parent npid maxSize
      let safe := if isIns then ¬ (maxSize ≤ size) else (maxSize + 1) / 2 < size
      let sc := if safe then sc.dropWhile (·.isSome) else sc
      t.findLeafMode key isIns fuel (nd.childFor key) (some pid :: sc)

/-- The upward half of InsertUpforward: walk the scratchpad from the
leaf's parent towards the root; a non-full ancestor absorbs the pushed
separator (and the moved child's parent id is rewritten); a full one is
split — the new sibling is initialised with `leaf_max_size_`, as in the
source — and the separator returned by InsertAndSplit is carried up; if
the `BEFORE_ROOT` marker is reached, a fresh root with the two children
is installed. -/
def Tree.upforwardLoop (t : Tree) (newMap : Nat × Int) :
    List (Option Int) → Bool × Tree
  | [] => (true, t)
  | none :: _ =>
    let rootPid := t.nextPid
    let t := { t with nextPid := rootPid + 1 }
    let arr : List (Nat × Int) := aset (aset [] 0 (0, t.root)) 1 (newMap.1, newMap.2)
    let nd := BNode.internal arr 2 (-1) rootPid t.internalMax
    let t := t.set rootPid nd
    let t := (List.range 2).foldl (fun t i =>
      let cpid := nd.childAt i
      t.set cpid ((t.get cpid).setParent rootPid)) t
    (true, { t with root := rootPid })
  | some upid :: rest =>
    match t.get upid with
    | .internal arr size parent pid maxSize =>
      if ¬ (maxSize ≤ size) then
        let (arr, size) := internalInsert arr size newMap.1 newMap.2
        let t := t.set upid (.internal arr size parent pid maxSize)
        let t := t.set newMap.2 ((t.get newMap.2).setParent upid)
        (true, t)
      else
        let pid2 := t.nextPid
        let t := { t with nextPid := pid2 + 1 }
        let newInt := BNode.internal [] 0 (-1) pid2 t.leafMax
        let (up, nu, sep) := internalInsertAndSplit (t.get upid) newInt newMap.1 newMap.2
        let t := t.set upid up
        let t := t.set pid2 nu
        let t := (List.range nu.getSize).foldl (fun t i =>
          let cpid := nu.childAt i
          t.set cpid ((t.get cpid).setParent pid2)) t
        t.upforwardLoop (sep, pid2) rest
    | _ => (false, t)

/-- InsertUpforward: split the full leaf, push `(new leaf's first key,
new page id)` upward. -/
def Tree.insertUpforward (t : Tree) (key value : Nat) (leafPid : Int)
    (sc : List (Option Int)) : Bool × Tree :=
  let newPid := t.nextPid
  let t := { t with nextPid := newPid + 1 }
  let newLeaf := BNode.leaf [] 0 (-1) (-1) newPid t.leafMax
  let (lf, nw) := leafInsertAndSplit (t.get leafPid) newLeaf key value
  let t := t.set leafPid lf
  let t := t.set newPid nw
  t.upforwardLoop (nw.keyAt 0, newPid) sc

/-- BPlusTree::Insert.  An empty tree gets a fresh root leaf.  Otherwise
descend in INSERT mode; a key that Exist reports as present returns
false; a non-full leaf absorbs the pair; a full one goes through
InsertUpforward. -/
def Tree.insert (t : Tree) (key value : Nat) : Bool × Tree :=
  if t.root = -1 then
    let pid := t.nextPid
    let nd := (BNode.leaf [] 0 (-1) (-1) pid t.leafMax).leafInsertN key value
    (true, { t with store := assocSet t.store pid nd, root := pid,
                    nextPid := pid + 1 })
  else
    let (leafPid, sc) := t.findLeafMode key true t.fuel t.root [none]
    match t.get leafPid with
    | .leaf arr size next parent pid maxSize =>
      if leafExist arr size key then (false, t)
      else if ¬ (maxSize ≤ size) then
        let (arr, size) := leafInsert arr size key value
        (true, t.set leafPid (.leaf arr size next parent pid maxSize))
      else t.insertUpforward key value leafPid sc
    | _ => (false, t)

/-- BPlusTree::GetValue: descend in READ mode, scan the leaf linearly,
then compare the probe key against the slot at the final index — which
equals `size` when every live key is smaller than the probe. -/
def Tree.getValue (t : Tree) (key : Nat) : Bool × Option Nat :=
  if t.root = -1 then (false, none)
  else
    match t.get (t.findLeafRead key t.fuel t.root) with
    | .leaf arr size _ _ _ _ =>
      let idx := leafScanGT arr key 0 size
      if cmpK key (aget arr idx).1 = 0 then (true, some (aget arr idx).2)
      else (false, none)
    | _ => (false, none)

/-- The index-of-child scan in Remove: advance until the slot's child id
matches (with fuel standing in for the source's unbounded scan). -/
def findChildIdx (arr : List (Nat × Int)) (target : Int) : Nat → Nat → Nat
  | i, 0 => i
  | i, fuel + 1 =>
    if (aget arr i).2 = target then i else findChildIdx arr target (i + 1) fuel

/-- BPlusTree::LeafBorrow on the page store: try the left sibling's last
entry, then the right sibling's first, updating the parent separator. -/
def Tree.leafBorrowT (t : Tree) (idx : Nat) (leafPid upperPid : Int) :
    Bool × Tree :=
  let (res, t) :=
    if 1 ≤ idx then
      let sibPid := (t.get upperPid).childAt (idx - 1)
      match t.get sibPid with
      | .leaf sarr ssize snext sparent spid smax =>
        if (smax + 1) / 2 < ssize then
          let brw := aget sarr (ssize - 1)
          let t := t.set sibPid (.leaf sarr (ssize - 1) snext sparent spid smax)
          let t := t.set leafPid ((t.get leafPid).leafInsertN brw.1 brw.2)
          let t := t.set upperPid
            ((t.get upperPid).setKeyAt idx ((t.get leafPid).keyAt 0))
          (true, t)
        else (false, t)
      | _ => (false, t)
    else (false, t)
  if res then (true, t)
  else if idx + 1 < (t.get upperPid).getSize then
    let sibPid := (t.get upperPid).childAt (idx + 1)
    match t.get sibPid with
    | .leaf sarr ssize snext sparent spid smax =>
      if (smax + 1) / 2 < ssize then
        let brw := aget sarr 0
        let (sarr, ssize) := leafDeleteAt sarr ssize 0
        let t := t.set sibPid (.leaf sarr ssize snext sparent spid smax)
        let t := t.set leafPid ((t.get leafPid).leafInsertN brw.1 brw.2)
        let t := t.set upperPid
          ((t.get upperPid).setKeyAt (idx + 1) ((t.get sibPid).keyAt 0))
        (true, t)
      else (false, t)
    | _ => (false, t)
  else (false, t)

/-- BPlusTree::LeafMerge on the page store.  The left case runs the
prepend loop on the kept leaf's array, rewrites the parent separator and
deletes the left sibling's parent entry; the right case appends.  The
DeletePage call on the merged-away sibling is refused by the buffer pool
(the sibling is still pinned by this very function's FetchPage), so the
sibling page stays in the store; see the `BPM` analysis. -/
def Tree.leafMergeT (t : Tree) (idx : Nat) (leafPid upperPid : Int) :
    Bool × Tree :=
  let (res, t) :=
    if 1 ≤ idx then
      let sibPid := (t.get upperPid).childAt (idx - 1)
      match t.get sibPid, t.get leafPid with
      | .leaf sarr ssize _ _ _ smax, .leaf larr lsize lnext lparent lpid lmax =>
        if ssize + lsize ≤ smax then
          let arr := mergePrependLoop sarr ssize larr 0 lsize
          let t := t.set leafPid (.leaf arr (ssize + lsize) lnext lparent lpid lmax)
          let up := (t.get upperPid).setKeyAt idx (aget arr 0).1
          let (uarr, usize) := internalDelete up.intArr up.getSize (idx - 1)
          let t := t.set upperPid
            (.internal uarr usize up.parentId up.pageId up.getMaxSize)
          (true, t)
        else (false, t)
      | _, _ => (false, t)
    else (false, t)
  if res then (true, t)
  else if idx + 1 < (t.get upperPid).getSize then
    let sibPid := (t.get upperPid).childAt (idx + 1)
    match t.get sibPid, t.get leafPid with
    | .leaf sarr ssize _ _ _ smax, .leaf larr lsize lnext lparent lpid lmax =>
      if ssize + lsize ≤ smax then
        let arr := mergeAppendLoop sarr lsize larr 0 ssize
        let t := t.set leafPid (.leaf arr (ssize + lsize) lnext lparent lpid lmax)
        let up := t.get upperPid
        let (uarr, usize) := internalDelete up.intArr up.getSize (idx + 1)
        let t := t.set upperPid
          (.internal uarr usize up.parentId up.pageId up.getMaxSize)
        (true, t)
      else (false, t)
    | _, _ => (false, t)
  else (false, t)

/-- BPlusTree::InternalBorrow on the page store. -/
def Tree.internalBorrowT (t : Tree) (idx : Nat) (lowerPid upperPid : Int) :
    Bool × Tree :=
  let (res, t) :=
    if 0 < idx then
      let sibPid := (t.get upperPid).childAt (idx - 1)
      match t.get sibPid with
      | .internal sarr ssize sparent spid smax =>
        if (smax + 1) / 2 < ssize then
          let brw := aget sarr (ssize - 1)
          let t := t.set sibPid (.internal sarr (ssize - 1) sparent spid smax)
          let t := t.set lowerPid ((t.get lowerPid).internalInsertN brw.1 brw.2)
          let t := t.set upperPid
            ((t.get upperPid).setKeyAt idx ((t.get lowerPid).keyAt 0))
          (true, t)
        else (false, t)
      | _ => (false, t)
    else (false, t)
  if res then (true, t)
  else if idx + 1 < (t.get upperPid).getSize then
    let sibPid := (t.get upperPid).childAt (idx + 1)
    match t.get sibPid with
    | .internal sarr ssize sparent spid smax =>
      if (smax + 1) / 2 < ssize then
        let brw := aget sarr 0
        let (sarr, ssize) := internalDelete sarr ssize 0
        let t := t.set sibPid (.internal sarr ssize sparent spid smax)
        let t := t.set lowerPid ((t.get lowerPid).internalInsertN brw.1 brw.2)
        let t := t.set upperPid
          ((t.get upperPid).setKeyAt (idx + 1) ((t.get sibPid).keyAt 0))
        (true, t)
      else (false, t)
    | _ => (false, t)
  else (false, t)

/-- BPlusTree::InternalMerge on the page store (left case checks the
kept page's max size, right case the sibling's, as in the source). -/
def Tree.internalMergeT (t : Tree) (idx : Nat) (lowerPid upperPid : Int) :
    Bool × Tree :=
  let (res, t) :=
    if 0 < idx then
      let sibPid := (t.get upperPid).childAt (idx - 1)
      match t.get sibPid, t.get lowerPid with
      | .internal sarr ssize _ _ _, .internal larr lsize lparent lpid lmax =>
        if ssize + lsize ≤ lmax then
          let arr := mergePrependLoop sarr ssize larr 0 lsize
          let t := t.set lowerPid (.internal arr (ssize + lsize) lparent lpid lmax)
          let up := (t.get upperPid).setKeyAt idx (aget arr 0).1
          let (uarr, usize) := internalDelete up.intArr up.getSize (idx - 1)
          let t := t.set upperPid
            (.internal uarr usize up.parentId up.pageId up.getMaxSize)
          (true, t)
        else (false, t)
      | _, _ => (false, t)
    else (false, t)
  if res then (true, t)
  else if idx + 1 < (t.get upperPid).getSize then
    let sibPid := (t.get upperPid).childAt (idx + 1)
    match t.get sibPid, t.get lowerPid with
    | .internal sarr ssize _ _ smax, .internal larr lsize lparent lpid lmax =>
      if ssize + lsize ≤ smax then
        let arr := mergeAppendLoop sarr lsize larr 0 ssize
        let t := t.set lowerPid (.internal arr (ssize + lsize) lparent lpid lmax)
        let up := t.get upperPid
        let (uarr, usize) := internalDelete up.intArr up.getSize (idx + 1)
        let t := t.set upperPid
          (.internal uarr usize up.parentId up.pageId up.getMaxSize)
        (true, t)
      else (false, t)
    | _, _ => (false, t)
  else (false, t)

/-- The upward rebalance loop of Remove: while the current ancestor is a
non-root node below its minimum size, pop its parent from the scratchpad
and borrow from or merge with a sibling, then continue one level up. -/
def Tree.internalRebalance (t : Tree) (curPid : Int) :
    List (Option Int) → Tree
  | [] => t
  | none :: _ => t
  | some upid :: rest =>
    match t.get curPid with
    | .internal _ size parent _ maxSize =>
      if parent ≠ -1 ∧ size < (maxSize + 1) / 2 then
        let idx := findChildIdx (t.get upid).intArr curPid 0 64
        let (ok, t) := t.internalBorrowT idx curPid upid
        let t := if ok then t else (t.internalMergeT idx curPid upid).2
        t.internalRebalance upid rest
      else t
    | _ => t

/-- BPlusTree::Remove: descend in DELETE mode, delete from the leaf, and
when a non-root leaf drops below its minimum, locate it in its parent,
try LeafBorrow, else LeafMerge followed by the upward rebalance loop. -/
def Tree.remove (t : Tree) (key : Nat) : Tree :=
  if t.root = -1 then t
  else
    let (leafPid, sc) := t.findLeafMode key false t.fuel t.root [none]
    match t.get leafPid with
    | .leaf arr size next parent pid maxSize =>
      let (arr, size) := leafDeleteKey arr size key
      let t := t.set leafPid (.leaf arr size next parent pid maxSize)
      if parent ≠ -1 ∧ size < (maxSize + 1) / 2 then
        match sc with
        | some upid :: rest =>
          let idx := findChildIdx (t.get upid).intArr leafPid 0 64
          let (ok, t) := t.leafBorrowT idx leafPid upid
          if ok then t
          else
            let (_, t) := t.leafMergeT idx leafPid upid
            t.internalRebalance upid rest
        | _ => t
      else t
    | _ => t

def Tree.insertSeq (t : Tree) (kvs : List (Nat × Nat)) : Tree :=
  kvs.foldl (fun t p => (t.insert p.1 p.2).2) t

/-! ### LeafMerge against the buffer pool
BPlusTree::LeafMerge fetches the sibling through the buffer pool and, on
a successful merge, hands it to DeletePage.  To examine that interaction
the merge is modelled over `BPM BNode`: pages hold tree nodes, a pointer
dereference is a read through the page table, a write through a page
pointer updates the owning frame. -/

def BPM.nodeOf (s : BPM BNode) (pid : Int) : BNode :=
  (s.pageAt ((ptFind s.pageTable pid).getD 0)).data

def BPM.writeNode (s : BPM BNode) (pid : Int) (nd : BNode) : BPM BNode :=
  match ptFind s.pageTable pid with
  | none => s
  | some fid => s.setPage fid { s.pageAt fid with data := nd }

/-- BPlusTree::LeafMerge over the buffer pool.  `leafPid` and `upperPid`
are pinned by the caller (Remove); the sibling is fetched here, which
adds this function's own pin, and on success DeletePage is called while
that pin is still held. -/
def BPM.leafMerge (s : BPM BNode) (idx : Nat) (leafPid upperPid : Int) :
    Bool × BPM BNode :=
  let (res, s) :=
    if 1 ≤ idx then
      let sibPid := (s.nodeOf upperPid).childAt (idx - 1)
      match s.fetchPgImp sibPid with
      | (none, s) => (false, s)
      | (some fid, s) =>
        match (s.pageAt fid).data, s.nodeOf leafPid with
        | .leaf sarr ssize _ _ _ smax, .leaf larr lsize lnext lparent lpid lmax =>
          if ssize + lsize ≤ smax then
            let arr := mergePrependLoop sarr ssize larr 0 lsize
            let s := s.writeNode leafPid (.leaf arr (ssize + lsize) lnext lparent lpid lmax)
            let up := (s.nodeOf upperPid).setKeyAt idx (aget arr 0).1
            let (uarr, usize) := internalDelete up.intArr up.getSize (idx - 1)
            let s := s.writeNode upperPid
              (.internal uarr usize up.parentId up.pageId up.getMaxSize)
            let (_, s) := s.deletePgImp sibPid
            (true, s)
          else
            let (_, s) := s.unpinPgImp sibPid false
            (false, s)
        | _, _ => (false, s)
    else (false, s)
  if res then (true, s)
  else if idx + 1 < (s.nodeOf upperPid).getSize then
    let sibPid := (s.nodeOf upperPid).childAt (idx + 1)
    match s.fetchPgImp sibPid with
    | (none, s) => (false, s)
    | (some fid, s) =>
      match (s.pageAt fid).data, s.nodeOf leafPid with
      | .leaf sarr ssize _ _ _ smax, .leaf larr lsize lnext lparent lpid lmax =>
        if ssize + lsize ≤ smax then
          let arr := mergeAppendLoop sarr lsize larr 0 ssize
          let s := s.writeNode leafPid (.leaf arr (ssize + lsize) lnext lparent lpid lmax)
          let up := s.nodeOf upperPid
          let (uarr, usize) := internalDelete up.intArr up.getSize (idx + 1)
          let s := s.writeNode upperPid
            (.internal uarr usize up.parentId up.pageId up.getMaxSize)
          let (_, s) := s.deletePgImp sibPid
          (true, s)
        else
          let (_, s) := s.unpinPgImp sibPid false
          (false, s)
      | _, _ => (false, s)
  else (false, s)

/-! ### Concrete scenarios used by the claim theorems -/

/-- C1/C3 input: a single-leaf tree (leaf capacity 4) holding keys 1 and
2, both inserted regularly. -/
def dupTree : Tree := Tree.insertSeq (Tree.empty 4 4) [(1, 11), (2, 22)]

/-- C4 input: leaf and internal capacity 5; the keys 1..6 force one leaf
split. -/
def splitTree : Tree :=
  Tree.insertSeq (Tree.empty 5 5) [(1, 1), (2, 2), (3, 3), (4, 4), (5, 5), (6, 6)]

/-- C10 input: a root leaf that held 10 and 20, after Remove(20); the
slot just past the live region still holds the stale pair (20, 200). -/
def staleTree : Tree :=
  (Tree.insertSeq (Tree.empty 4 4) [(10, 100), (20, 200)]).remove 20

/-- C7 input A: bucket capacity 1, keys 0,1,4,3 (identity hash). -/
def dirTabA : EHT := (EHT.new 1).insertSeq [(0, 0), (1, 1), (4, 4), (3, 3)]

/-- C7 input B: bucket capacity 1, keys 0,4,7,1. -/
def dirTabB : EHT := (EHT.new 1).insertSeq [(0, 0), (4, 4), (7, 7), (1, 1)]

/-- C2 input: a one-frame pool whose only page (id 0, pin 0, evictable)
is dirty: its in-memory bytes are 7 while the disk still holds 1. -/
def dirtyPool : BPM Nat :=
  { poolSize := 1,
    pages := [⟨0, 0, true, 7⟩],
    pageTable := [(0, 0)],
    freeList := [],
    replacer := (RState.init 1 2).applyOps [ROp.record 0, ROp.setEv 0 true],
    disk := [(0, 1)],
    writes := [],
    nextPageId := 1 }

/-- C5 input: a one-frame pool whose only page (id 0) is pinned once and
clean. -/
def pinnedPool : BPM Nat :=
  { poolSize := 1,
    pages := [⟨0, 1, false, 7⟩],
    pageTable := [(0, 0)],
    freeList := [],
    replacer := (RState.init 1 2).applyOps [ROp.record 0],
    disk := [],
    writes := [],
    nextPageId := 1 }

/-- C8 input: parent page 10 (frame 0) with children sibling 12 and leaf
11; leaf 11 (frame 1) underfull with one entry; left sibling 12 (frame 2)
with two entries, unpinned.  Leaf and parent carry the pins Remove's
descent holds at the point LeafMerge is called. -/
def mergePool : BPM BNode :=
  { poolSize := 3,
    pages :=
      [⟨10, 1, false, .internal [(0, 12), (30, 11)] 2 (-1) 10 4⟩,
       ⟨11, 1, false, .leaf [(30, 300)] 1 (-1) 10 11 4⟩,
       ⟨12, 0, false, .leaf [(10, 100), (20, 200)] 2 11 10 12 4⟩],
    pageTable := [(10, 0), (11, 1), (12, 2)],
    freeList := [],
    replacer := (RState.init 3 2).applyOps
      [ROp.record 0, ROp.record 1, ROp.record 2, ROp.setEv 2 true],
    disk := [],
    writes := [],
    nextPageId := 13 }

/-! ## Claim theorems -/

/-- C1: the claim states that a successful `Insert(k, v)` with no later
`Remove(k)` or conflicting insert makes `GetValue(k)` return true and
append exactly `v`.  The code refutes it: on the single-leaf tree holding
1 and 2, `Insert(2, 33)` is *accepted* (Exist only recognises a key
sitting in the leaf's first slot), no further operation runs, yet
`GetValue(2)` returns the value 22 stored by the earlier insert, not
33. -/
theorem getValue_after_accepted_insert_returns_stale_value :
    (dupTree.insert 2 33).1 = true ∧
    ((dupTree.insert 2 33).2).getValue 2 = (true, some 22) ∧
    ((dupTree.insert 2 33).2).getValue 2 ≠ (true, some 33) := by
  decide

/-- C3: the claim states that inserting an already-present key returns
false and leaves the tree unchanged.  `Exist`'s scan advances only while
the probe is *less* than the stored key, so over an ascending array it
stops at slot 0 and recognises only the leaf's first key: inserting the
present key 2 is accepted, a duplicate entry appears, and the tree
changes. -/
theorem insert_existing_key_accepted_and_mutates :
    leafExist [(1, 11), (2, 22)] 2 1 = true ∧
    leafExist [(1, 11), (2, 22)] 2 2 = false ∧
    (dupTree.insert 2 33).1 = true ∧
    (dupTree.insert 2 33).2 ≠ dupTree ∧
    ((dupTree.insert 2 33).2).get 1 =
      BNode.leaf [(1, 11), (2, 22), (2, 33)] 3 (-1) (-1) 1 4 := by
  decide

/-- C4: the claim states the leaf split pivot is about `size / 2` and
that afterwards every non-root leaf satisfies `min_size ≤ size`.  The
source computes `int pivot = (GetSize() - 1) > 1;`, a comparison, so a
full leaf of capacity 5 splits 2 against 4: with keys 1..6 the left leaf
(page 1) is a non-root leaf of size 2, below `min_size = ⌈5/2⌉ = 3`. -/
theorem leaf_split_pivot_violates_min_size :
    splitTree.root = 3 ∧
    splitTree.get 1 = BNode.leaf [(1, 1), (2, 2), (3, 3), (4, 4), (5, 5)] 2 2 3 1 5 ∧
    (splitTree.get 2).getSize = 4 ∧
    (splitTree.get 1).isRootPage = false ∧
    (splitTree.get 1).minSize = 3 ∧
    (splitTree.get 1).getSize < (splitTree.get 1).minSize := by
  decide

/-- C5: the claim states `UnpinPage(p, true)` sets a sticky dirty flag
and performs no disk write.  The code instead calls FlushPgImp from the
unpin path: the page's bytes go straight to disk via the disk manager and
the frame's dirty flag ends up clear, not set. -/
theorem unpin_dirty_flushes_immediately :
    (pinnedPool.unpinPgImp 0 true).1 = true ∧
    (pinnedPool.unpinPgImp 0 true).2.writes = [(0, 7)] ∧
    ((pinnedPool.unpinPgImp 0 true).2.pageAt 0).isDirty = false ∧
    ((pinnedPool.unpinPgImp 0 true).2.pageAt 0).pinCount = 0 := by
  decide

/-- C2: the claim states a dirty eviction victim is written to disk
before its frame is reused.  On a pool whose only page (id 0) is dirty
with bytes 7 (disk still holds 1): FetchPage(5) evicts it and performs no
write at all — the miss path never calls ResetPage; NewPage evicts it and
ResetPage's flush attempt silently fails because GetEmptyPage already
removed the page-table entry FlushPgImp needs.  Either way the write log
stays empty and the disk keeps the stale bytes. -/
theorem eviction_does_not_flush_dirty_victim :
    (dirtyPool.pageAt 0).isDirty = true ∧
    (dirtyPool.fetchPgImp 5).1 = some 0 ∧
    (dirtyPool.fetchPgImp 5).2.writes = [] ∧
    (dirtyPool.fetchPgImp 5).2.disk = [(0, 1)] ∧
    dirtyPool.newPgImp.1 = some (1, 0) ∧
    dirtyPool.newPgImp.2.writes = [] := by
  decide

/-- C6: the claim states hash-table insertion overwrites on a duplicate
key.  `Bucket::Insert` assigns the new value to a *copy* of the stored
pair (`std::pair p = *it; p.second = value;`), so after Insert(1,10) and
Insert(1,20), Find(1) still returns 10. -/
theorem duplicate_insert_keeps_old_value :
    ((EHT.new 2).insert 1 10 |>.insert 1 20).find 1 = some 10 ∧
    ((EHT.new 2).insert 1 10 |>.insert 1 20).find 1 ≠ some 20 := by
  decide

/-- C7: the claim states that in every reachable table state, directory
slots agreeing on a bucket's low `local_depth` bits share that bucket,
and every stored key sits in the bucket its directory slot references.
With bucket capacity 1 and keys 0,1,4,3, the split of the depth-1 bucket
reached from slot 3 updates only slot 3, leaving slot 7 — equal to it in
the low two bits — pointing at the old bucket.  With keys 0,4,7,1 the
stored key 7 ends up in a bucket (id 4) that slot `IndexOf(7)` no longer
references, and Find(7) fails outright. -/
theorem split_leaves_directory_inconsistent :
    (dirTabA.bucketAt (dirTabA.dirAt 3)).depth = 2 ∧
    (dirTabA.bucketAt (dirTabA.dirAt 7)).depth = 2 ∧
    3 &&& (2 ^ 2 - 1) = 7 &&& (2 ^ 2 - 1) ∧
    dirTabA.dirAt 3 ≠ dirTabA.dirAt 7 ∧
    (dirTabB.bucketAt 4).items = [(7, 7)] ∧
    dirTabB.dirAt (dirTabB.indexOf 7) ≠ 4 ∧
    dirTabB.find 7 = none := by
  decide

/-- C8: the claim states the merged-away sibling is freed via DeletePage,
after which it is no longer resident and its frame returns to the free
list.  LeafMerge's own FetchPage pin is still held when DeletePage runs,
so DeletePage refuses: after a successful left merge the parent entry is
gone (parent size drops to 1), but page 12 is still mapped to frame 2,
the free list stays empty, and the frame keeps a pin count of 1
forever. -/
theorem merged_sibling_page_never_freed :
    (mergePool.leafMerge 1 11 10).1 = true ∧
    ((mergePool.leafMerge 1 11 10).2.nodeOf 10).getSize = 1 ∧
    ptFind (mergePool.leafMerge 1 11 10).2.pageTable 12 = some 2 ∧
    (mergePool.leafMerge 1 11 10).2.freeList = [] ∧
    ((mergePool.leafMerge 1 11 10).2.pageAt 2).pinCount = 1 := by
  decide

/-- C10: the claim states GetValue's linear search touches the leaf's
entry array only at indices strictly below the live size.  The scan stops
at `idx = size` whenever every live key is below the probe, and the final
equality comparison then reads slot `size`: over the live prefix of
[(10,100), (20,200)] with size 2 probing 25 stops at 2, and after
Remove(20) leaves size 1 with the stale pair (20,200) still in slot 1,
GetValue(20) reads that stale slot and reports the removed key as
present. -/
theorem getValue_scan_reads_slot_at_size :
    leafScanGT [(10, 100), (20, 200)] 25 0 2 = 2 ∧
    staleTree.get 1 = BNode.leaf [(10, 100), (20, 200)] 1 (-1) (-1) 1 4 ∧
    leafScanGT [(10, 100), (20, 200)] 20 0 1 = 1 ∧
    ¬ leafScanGT [(10, 100), (20, 200)] 20 0 1 < 1 ∧
    staleTree.getValue 20 = (true, some 200) := by
  decide

/-! ## Supporting lemmas for the LRU-K eviction theorem -/

theorem getD_set_self {α : Type} (l : List α) (n : Nat) (a d : α) :
    (l.set n a).getD n d = if n < l.length then a else d := by
  induction l generalizing n with
  | nil => simp [List.getD]
  | cons x xs ih =>
    cases n with
    | zero => simp
    | succ m => simpa [Nat.succ_lt_succ_iff] using ih m

theorem getD_set_ne {α : Type} (l : List α) {m n : Nat} (h : m ≠ n) (a d : α) :
    (l.set n a).getD m d = l.getD m d := by
  induction l generalizing m n with
  | nil => simp
  | cons x xs ih =>
    cases n with
    | zero =>
      cases m with
      | zero => exact absurd rfl h
      | succ m' => simp
    | succ n' =>
      cases m with
      | zero => simp
      | succ m' => simpa using ih (fun hh => h (by rw [hh]))

theorem eraseFirstFrame_sublist (q : List RQuery) (f : Nat) :
    List.Sublist (eraseFirstFrame q f) q := by
  induction q with
  | nil => simp [eraseFirstFrame]
  | cons e rest ih =>
    rw [eraseFirstFrame]
    split
    · exact List.sublist_cons_self e rest
    · exact ih.cons₂ e

/-- Scanning a queue fails exactly when no entry's frame is evictable. -/
theorem evictScan_none_iff (ev : Nat → Bool) (q : List RQuery) :
    evictScan ev q = none ↔ ∀ e ∈ q, ev e.1 = false := by
  induction q with
  | nil => simp [evictScan]
  | cons e rest ih =>
    rw [evictScan]
    by_cases hev : ev e.1 = true
    · simp [hev]
    · rw [if_neg hev]
      cases hscan : evictScan ev rest with
      | none =>
        constructor
        · intro _ e' he'
          rcases List.mem_cons.mp he' with rfl | hm
          · exact Bool.eq_false_iff.mpr hev
          · exact (ih.mp hscan) e' hm
        · intro _; rfl
      | some pr =>
        obtain ⟨f0, q0⟩ := pr
        constructor
        · intro h; cases h
        · intro h
          exact absurd (ih.mpr (fun e' he' => h e' (List.mem_cons_of_mem _ he')))
            (by simp [hscan])

/-- A successful scan: the victim is evictable, the surviving queue is
the original minus every entry of the victim frame, and the victim is
the frame of the first evictable entry. -/
theorem evictScan_some_spec (ev : Nat → Bool) :
    ∀ {q : List RQuery} {f : Nat} {q' : List RQuery},
      evictScan ev q = some (f, q') →
      ev f = true ∧
      q' = q.filter (fun e => decide (e.1 ≠ f)) ∧
      (q.find? (fun e => ev e.1)).map Prod.fst = some f
  | [], f, q' => by intro h; cases h
  | e :: rest, f, q' => by
    intro h
    rw [evictScan] at h
    by_cases hev : ev e.1 = true
    · rw [if_pos hev] at h
      injection h with h1
      rw [Prod.mk.injEq] at h1
      obtain ⟨rfl, rfl⟩ := h1
      refine ⟨hev, ?_, ?_⟩
      · simp [List.filter_cons]
      · simp [List.find?_cons, hev]
    · rw [if_neg hev] at h
      cases hscan : evictScan ev rest with
      | none => rw [hscan] at h; cases h
      | some pr =>
        obtain ⟨f0, q0⟩ := pr
        rw [hscan] at h
        injection h with h1
        rw [Prod.mk.injEq] at h1
        obtain ⟨rfl, rfl⟩ := h1
        obtain ⟨hf0, hq0, hfind⟩ := evictScan_some_spec ev hscan
        have hne : e.1 ≠ f0 := fun hh => hev (by rw [hh]; exact hf0)
        refine ⟨hf0, ?_, ?_⟩
        · rw [hq0]; simp [List.filter_cons, hne]
        · simp [List.find?_cons, hev, hfind]

/-- Over a time-sorted queue, the first entry satisfying a predicate has
the least timestamp among all entries satisfying it. -/
theorem find?_sorted_min {q : List RQuery} (hs : q.Sorted timeLE)
    {p : RQuery → Bool} {e : RQuery} (h : q.find? p = some e) :
    e ∈ q ∧ p e = true ∧ ∀ e' ∈ q, p e' = true → e.2 ≤ e'.2 := by
  induction q with
  | nil => cases h
  | cons a l ih =>
    by_cases hpa : p a = true
    · rw [List.find?_cons_of_pos _ hpa] at h
      injection h with h1
      subst h1
      refine ⟨List.mem_cons_self a l, hpa, ?_⟩
      intro e' he' _
      rcases List.mem_cons.mp he' with rfl | hm
      · exact Nat.le_refl _
      · exact List.rel_of_sorted_cons hs e' hm
    · rw [List.find?_cons_of_neg _ hpa] at h
      obtain ⟨hm, hp, hmin⟩ := ih hs.of_cons h
      refine ⟨List.mem_cons_of_mem _ hm, hp, ?_⟩
      intro e' he' hp'
      rcases List.mem_cons.mp he' with rfl | hm'
      · exact absurd hp' hpa
      · exact hmin e' hm' hp'

/-! ### Preservation of the replacer invariant -/

theorem wf_init (nf k : Nat) : (RState.init nf k).WF :=
  ⟨by simp [RState.init], by simp [RState.init],
   ⟨by simp [RState.init], by simp [RState.init]⟩,
   by simp [RState.init, RState.TimeSorted], by simp [RState.init],
   by simp [RState.init], by simp [RState.init]⟩

theorem wf_setEvictable (s : RState) (f : Nat) (b : Bool) (h : s.WF) :
    (s.setEvictable f b).WF := by
  obtain ⟨h1, h2, h3, h4⟩ := h
  unfold RState.setEvictable
  split
  · exact ⟨h1, h2, h3, h4⟩
  · exact ⟨h1, by simpa using h2, h3, h4⟩

theorem wf_remove (s : RState) (f : Nat) (h : s.WF) : (s.remove f).WF := by
  obtain ⟨h1, h2, ⟨hcy, hcm⟩, hsy, hsm, hby, hbm⟩ := h
  unfold RState.remove
  apply wf_setEvictable
  split_ifs with hk
  · simp only [RState.WF, RState.Confined, RState.TimeSorted]
    refine ⟨by simpa using h1, h2, ⟨?_, ?_⟩, hsy,
      hsm.sublist (List.filter_sublist _), hby, ?_⟩
    · intro e he
      have hne : e.1 ≠ f := by
        intro hh
        have := hcy e he
        rw [hh] at this
        omega
      have hx := hcy e he
      simp only [RState.ctGet] at hx ⊢
      rw [getD_set_ne _ hne]
      exact hx
    · intro e he
      have hmem := List.mem_of_mem_filter he
      have hne : e.1 ≠ f := by simpa using (List.of_mem_filter he)
      have hx := hcm e hmem
      simp only [RState.ctGet] at hx ⊢
      rw [getD_set_ne _ hne]
      exact hx
    · intro e he
      exact hbm e (List.mem_of_mem_filter he)
  · simp only [RState.WF, RState.Confined, RState.TimeSorted]
    refine ⟨by simpa using h1, h2, ⟨?_, ?_⟩,
      hsy.sublist (List.filter_sublist _), hsm, ?_, hbm⟩
    · intro e he
      have hmem := List.mem_of_mem_filter he
      have hne : e.1 ≠ f := by simpa using (List.of_mem_filter he)
      have hx := hcy e hmem
      simp only [RState.ctGet] at hx ⊢
      rw [getD_set_ne _ hne]
      exact hx
    · intro e he
      have hne : e.1 ≠ f := by
        intro hh
        have := hcm e he
        rw [hh] at this
        omega
      have hx := hcm e he
      simp only [RState.ctGet] at hx ⊢
      rw [getD_set_ne _ hne]
      exact hx
    · intro e he
      exact hby e (List.mem_of_mem_filter he)

theorem wf_recordAccess (s : RState) (f : Nat) (hf : f < s.numFrames)
    (h : s.WF) : (s.recordAccess f).WF := by
  obtain ⟨h1, h2, ⟨hcy, hcm⟩, hsy, hsm, hby, hbm⟩ := h
  have hflen : f < s.counter.length := by rw [h1]; exact hf
  unfold RState.recordAccess RState.cacheUpgrade
  dsimp only
  split_ifs with hk1 hk2
  -- counter reached K: upgrade then append to mature
  · simp only [RState.WF, RState.Confined, RState.TimeSorted]
    refine ⟨by simpa using h1, h2, ⟨?_, ?_⟩, ?_, ?_, ?_, ?_⟩
    · intro e he
      have hmem := List.mem_of_mem_filter he
      have hne : e.1 ≠ f := by simpa using (List.of_mem_filter he)
      have hx := hcy e hmem
      simp only [RState.ctGet] at hx ⊢
      rw [getD_set_ne _ hne]
      exact hx
    · intro e he
      rcases List.mem_append.mp he with hin | hone
      · rcases List.mem_append.mp
          (((List.perm_insertionSort timeLE _).mem_iff).mp hin) with hm | hmv
        · by_cases hef : e.1 = f
          · have hx := hcm e hm
            simp only [RState.ctGet] at hx hk1 ⊢
            rw [hef] at hx ⊢
            rw [getD_set_self, if_pos hflen]
            omega
          · have hx := hcm e hm
            simp only [RState.ctGet] at hx ⊢
            rw [getD_set_ne _ hef]
            exact hx
        · have hef : e.1 = f := by simpa using (List.of_mem_filter hmv)
          simp only [RState.ctGet] at hk1 ⊢
          rw [hef, getD_set_self, if_pos hflen]
          omega
      · have hone' : e = (f, s.currTime) := by simpa using hone
        subst hone'
        simp only [RState.ctGet] at hk1 ⊢
        rw [getD_set_self, if_pos hflen]
        omega
    · exact hsy.sublist (List.filter_sublist _)
    · refine List.pairwise_append.mpr ⟨List.sorted_insertionSort timeLE _, by simp, ?_⟩
      intro a ha b hb
      have hb' : b = (f, s.currTime) := by simpa using hb
      subst hb'
      rcases List.mem_append.mp
        (((List.perm_insertionSort timeLE _).mem_iff).mp ha) with hm | hmv
      · exact Nat.le_of_lt (hbm a hm)
      · exact Nat.le_of_lt (hby a (List.mem_of_mem_filter hmv))
    · intro e he
      exact Nat.lt_succ_of_lt (hby e (List.mem_of_mem_filter he))
    · intro e he
      rcases List.mem_append.mp he with hin | hone
      · rcases List.mem_append.mp
          (((List.perm_insertionSort timeLE _).mem_iff).mp hin) with hm | hmv
        · exact Nat.lt_succ_of_lt (hbm e hm)
        · exact Nat.lt_succ_of_lt (hby e (List.mem_of_mem_filter hmv))
      · have hone' : e = (f, s.currTime) := by simpa using hone
        subst hone'
        exact Nat.lt_succ_self _
  -- counter past K: append to mature, cap, drop the frame's oldest entry
  · simp only [RState.WF, RState.Confined, RState.TimeSorted]
    refine ⟨by simpa using h1, h2, ⟨?_, ?_⟩, hsy, ?_, ?_, ?_⟩
    · intro e he
      have hne : e.1 ≠ f := by
        intro hh
        have := hcy e he
        rw [hh] at this
        omega
      have hx := hcy e he
      simp only [RState.ctGet] at hx ⊢
      rw [getD_set_ne _ hne, getD_set_ne _ hne]
      exact hx
    · intro e he
      have hmem := (eraseFirstFrame_sublist _ _).mem he
      rcases List.mem_append.mp hmem with hm | hone
      · by_cases hef : e.1 = f
        · simp only [RState.ctGet]
          rw [hef, getD_set_self]
          simp [hflen]
        · have hx := hcm e hm
          simp only [RState.ctGet] at hx ⊢
          rw [getD_set_ne _ hef, getD_set_ne _ hef]
          exact hx
      · have hone' : e = (f, s.currTime) := by simpa using hone
        subst hone'
        simp only [RState.ctGet]
        rw [getD_set_self]
        simp [hflen]
    · refine List.Pairwise.sublist (eraseFirstFrame_sublist _ _) ?_
      refine List.pairwise_append.mpr ⟨hsm, by simp, ?_⟩
      intro a ha b hb
      have hb' : b = (f, s.currTime) := by simpa using hb
      subst hb'
      exact Nat.le_of_lt (hbm a ha)
    · intro e he
      exact Nat.lt_succ_of_lt (hby e he)
    · intro e he
      have hmem := (eraseFirstFrame_sublist _ _).mem he
      rcases List.mem_append.mp hmem with hm | hone
      · exact Nat.lt_succ_of_lt (hbm e hm)
      · have hone' : e = (f, s.currTime) := by simpa using hone
        subst hone'
        exact Nat.lt_succ_self _
  -- counter still below K: append to young
  · simp only [RState.WF, RState.Confined, RState.TimeSorted]
    refine ⟨by simpa using h1, h2, ⟨?_, ?_⟩, ?_, hsm, ?_, ?_⟩
    · intro e he
      rcases List.mem_append.mp he with hm | hone
      · by_cases hef : e.1 = f
        · simp only [RState.ctGet] at hk1 hk2 ⊢
          rw [hef, getD_set_self, if_pos hflen]
          omega
        · have hx := hcy e hm
          simp only [RState.ctGet] at hx ⊢
          rw [getD_set_ne _ hef]
          exact hx
      · have hone' : e = (f, s.currTime) := by simpa using hone
        subst hone'
        simp only [RState.ctGet] at hk1 hk2 ⊢
        rw [getD_set_self, if_pos hflen]
        omega
    · intro e he
      have hne : e.1 ≠ f := by
        intro hh
        have hx := hcm e he
        simp only [RState.ctGet] at hx hk1 hk2
        rw [hh] at hx
        omega
      have hx := hcm e he
      simp only [RState.ctGet] at hx ⊢
      rw [getD_set_ne _ hne]
      exact hx
    · refine List.pairwise_append.mpr ⟨hsy, by simp, ?_⟩
      intro a ha b hb
      have hb' : b = (f, s.currTime) := by simpa using hb
      subst hb'
      exact Nat.le_of_lt (hby a ha)
    · intro e he
      rcases List.mem_append.mp he with hm | hone
      · exact Nat.lt_succ_of_lt (hby e hm)
      · have hone' : e = (f, s.currTime) := by simpa using hone
        subst hone'
        exact Nat.lt_succ_self _
    · intro e he
      exact Nat.lt_succ_of_lt (hbm e he)

theorem wf_evict (s : RState) (h : s.WF) : s.evict.2.WF := by
  obtain ⟨h1, h2, ⟨hcy, hcm⟩, hsy, hsm, hby, hbm⟩ := h
  unfold RState.evict
  cases hy : evictScan (fun f => s.evGet f) s.young with
  | some pr =>
    obtain ⟨f, q⟩ := pr
    obtain ⟨hevf, hq, hfind⟩ := evictScan_some_spec _ hy
    have hfy : ∃ e0 ∈ s.young, e0.1 = f := by
      cases hf0 : s.young.find? (fun e => s.evGet e.1) with
      | none => rw [hf0] at hfind; cases hfind
      | some e0 =>
        rw [hf0] at hfind
        exact ⟨e0, List.mem_of_find?_eq_some hf0, by simpa using hfind⟩
    obtain ⟨e0, he0, he0f⟩ := hfy
    have hctf : s.ctGet f < s.k := he0f ▸ hcy e0 he0
    apply wf_setEvictable
    simp only [RState.WF, RState.Confined, RState.TimeSorted]
    refine ⟨by simpa using h1, h2, ⟨?_, ?_⟩, ?_, hsm, ?_, hbm⟩
    · intro e he
      rw [hq] at he
      have hmem := List.mem_of_mem_filter he
      have hne : e.1 ≠ f := by simpa using (List.of_mem_filter he)
      have hx := hcy e hmem
      simp only [RState.ctGet] at hx ⊢
      rw [getD_set_ne _ hne]
      exact hx
    · intro e he
      have hne : e.1 ≠ f := by
        intro hh
        have hx := hcm e he
        rw [hh] at hx
        omega
      have hx := hcm e he
      simp only [RState.ctGet] at hx ⊢
      rw [getD_set_ne _ hne]
      exact hx
    · rw [hq]
      exact hsy.sublist (List.filter_sublist _)
    · intro e he
      rw [hq] at he
      exact hby e (List.mem_of_mem_filter he)
  | none =>
    cases hm : evictScan (fun f => s.evGet f) s.mature with
    | some pr =>
      obtain ⟨f, q⟩ := pr
      obtain ⟨hevf, hq, hfind⟩ := evictScan_some_spec _ hm
      have hnoy := (evictScan_none_iff _ _).mp hy
      apply wf_setEvictable
      simp only [RState.WF, RState.Confined, RState.TimeSorted]
      refine ⟨by simpa using h1, h2, ⟨?_, ?_⟩, hsy, ?_, hby, ?_⟩
      · intro e he
        have hne : e.1 ≠ f := by
          intro hh
          have := hnoy e he
          rw [hh, hevf] at this
          cases this
        have hx := hcy e he
        simp only [RState.ctGet] at hx ⊢
        rw [getD_set_ne _ hne]
        exact hx
      · intro e he
        rw [hq] at he
        have hmem := List.mem_of_mem_filter he
        have hne : e.1 ≠ f := by simpa using (List.of_mem_filter he)
        have hx := hcm e hmem
        simp only [RState.ctGet] at hx ⊢
        rw [getD_set_ne _ hne]
        exact hx
      · rw [hq]
        exact hsm.sublist (List.filter_sublist _)
      · intro e he
        rw [hq] at he
        exact hbm e (List.mem_of_mem_filter he)
    | none => exact ⟨h1, h2, ⟨hcy, hcm⟩, hsy, hsm, hby, hbm⟩

theorem wf_applyOp (s : RState) (op : ROp) (h : s.WF) : (s.applyOp op).WF := by
  cases op with
  | record f =>
    simp only [RState.applyOp]
    split_ifs with hf
    · exact wf_recordAccess s f hf h
    · exact h
  | setEv f b =>
    simp only [RState.applyOp]
    split_ifs with hf
    · exact wf_setEvictable s f b h
    · exact h
  | remove f =>
    simp only [RState.applyOp]
    split_ifs with hf
    · exact wf_remove s f h
    · exact h
  | evict => exact wf_evict s h

theorem wf_applyOps (s : RState) (ops : List ROp) (h : s.WF) :
    (s.applyOps ops).WF := by
  induction ops generalizing s with
  | nil => simpa [RState.applyOps] using h
  | cons op rest ih =>
    simp only [RState.applyOps, List.foldl_cons] at *
    exact ih _ (wf_applyOp s op h)

theorem setEvictable_queues (s : RState) (f : Nat) (b : Bool) :
    (s.setEvictable f b).young = s.young ∧
    (s.setEvictable f b).mature = s.mature ∧
    (s.setEvictable f b).counter = s.counter := by
  unfold RState.setEvictable
  split <;> exact ⟨rfl, rfl, rfl⟩

theorem ctGet_setEvictable (s : RState) (f : Nat) (b : Bool) (g : Nat) :
    (s.setEvictable f b).ctGet g = s.ctGet g := by
  unfold RState.setEvictable
  split <;> rfl

theorem evGet_setEvictable_false (s : RState) (f : Nat) :
    (s.setEvictable f false).evGet f = false := by
  unfold RState.setEvictable
  split
  · next hcond => exact hcond.symm
  · simp only [RState.evGet]
    rw [getD_set_self]
    split <;> rfl

/-- Behaviour of Evict on any well-formed replacer state: failure exactly
when no queue entry belongs to an evictable frame; on success the victim
is evictable, every queue entry of the victim disappears (and only
those), its counter and flag are reset, and the victim owns the
least-timestamp evictable entry of the young queue — or of the mature
queue when the young queue has no evictable entry. -/
theorem evict_spec_of_wf (s : RState) (hwf : s.WF) :
    (s.evict.1 = none ↔ ∀ e ∈ s.young ++ s.mature, s.evGet e.1 = false) ∧
    (∀ f s', s.evict = (some f, s') →
      s.evGet f = true ∧
      s'.young = s.young.filter (fun e => decide (e.1 ≠ f)) ∧
      s'.mature = s.mature.filter (fun e => decide (e.1 ≠ f)) ∧
      s'.ctGet f = 0 ∧
      s'.evGet f = false ∧
      ((∃ e ∈ s.young, e.1 = f ∧
          ∀ e' ∈ s.young, s.evGet e'.1 = true → e.2 ≤ e'.2) ∨
       ((∀ e ∈ s.young, s.evGet e.1 = false) ∧
        ∃ e ∈ s.mature, e.1 = f ∧
          ∀ e' ∈ s.mature, s.evGet e'.1 = true → e.2 ≤ e'.2))) := by
  obtain ⟨h1, h2, ⟨hcy, hcm⟩, hsy, hsm, hby, hbm⟩ := hwf
  unfold RState.evict
  cases hy : evictScan (fun f => s.evGet f) s.young with
  | some pr =>
    obtain ⟨f0, q0⟩ := pr
    obtain ⟨hevf, hq, hfind⟩ := evictScan_some_spec _ hy
    cases hf0 : s.young.find? (fun e => s.evGet e.1) with
    | none => rw [hf0] at hfind; cases hfind
    | some e0 =>
      rw [hf0] at hfind
      have he0f : e0.1 = f0 := by simpa using hfind
      obtain ⟨he0mem, he0p, he0min⟩ := find?_sorted_min hsy hf0
      have hctf : s.ctGet f0 < s.k := he0f ▸ hcy e0 he0mem
      constructor
      · constructor
        · intro h; cases h
        · intro hall
          have hfalse := hall e0 (List.mem_append.mpr (Or.inl he0mem))
          rw [hfalse] at he0p
          cases he0p
      · intro f s' hpair
        injection hpair with hp1 hp2
        injection hp1 with hff
        subst hff
        subst hp2
        refine ⟨by simpa using hevf, ?_, ?_, ?_, ?_, ?_⟩
        · rw [(setEvictable_queues _ _ _).1]
          exact hq
        · rw [(setEvictable_queues _ _ _).2.1]
          show s.mature = _
          refine (List.filter_eq_self.mpr ?_).symm
          intro e he
          have hne : e.1 ≠ f0 := by
            intro hh
            have := hcm e he
            rw [hh] at this
            omega
          simpa using hne
        · rw [ctGet_setEvictable]
          simp only [RState.ctGet]
          rw [getD_set_self]
          split <;> rfl
        · exact evGet_setEvictable_false _ _
        · exact Or.inl ⟨e0, he0mem, he0f,
            fun e' he' hp' => he0min e' he' (by simpa using hp')⟩
  | none =>
    have hnoy := (evictScan_none_iff _ _).mp hy
    cases hm : evictScan (fun f => s.evGet f) s.mature with
    | some pr =>
      obtain ⟨f0, q0⟩ := pr
      obtain ⟨hevf, hq, hfind⟩ := evictScan_some_spec _ hm
      cases hf0 : s.mature.find? (fun e => s.evGet e.1) with
      | none => rw [hf0] at hfind; cases hfind
      | some e0 =>
        rw [hf0] at hfind
        have he0f : e0.1 = f0 := by simpa using hfind
        obtain ⟨he0mem, he0p, he0min⟩ := find?_sorted_min hsm hf0
        constructor
        · constructor
          · intro h; cases h
          · intro hall
            have hfalse := hall e0 (List.mem_append.mpr (Or.inr he0mem))
            rw [hfalse] at he0p
            cases he0p
        · intro f s' hpair
          injection hpair with hp1 hp2
          injection hp1 with hff
          subst hff
          subst hp2
          refine ⟨by simpa using hevf, ?_, ?_, ?_, ?_, ?_⟩
          · rw [(setEvictable_queues _ _ _).1]
            show s.young = _
            refine (List.filter_eq_self.mpr ?_).symm
            intro e he
            have hne : e.1 ≠ f0 := by
              intro hh
              have := hnoy e he
              rw [hh] at this
              rw [this] at hevf
              cases hevf
            simpa using hne
          · rw [(setEvictable_queues _ _ _).2.1]
            exact hq
          · rw [ctGet_setEvictable]
            simp only [RState.ctGet]
            rw [getD_set_self]
            split <;> rfl
          · exact evGet_setEvictable_false _ _
          · exact Or.inr ⟨hnoy, e0, he0mem, he0f,
              fun e' he' hp' => he0min e' he' (by simpa using hp')⟩
    | none =>
      constructor
      · refine iff_of_true rfl ?_
        intro e he
        rcases List.mem_append.mp he with hmem | hmem
        · exact hnoy e hmem
        · exact (evictScan_none_iff _ _).mp hm e hmem
      · intro f s' hpair
        injection hpair with hp1 hp2
        cases hp1

/-- C9 (amended): for every replacer state reachable by RecordAccess,
SetEvictable, Remove and Evict calls, Evict fails exactly when no
recorded access entry belongs to an evictable frame (so a frame whose
flag was set without any recorded access is never found); when an
evictable frame has a queue entry, Evict succeeds, returns the frame
owning the oldest evictable entry — scanning the young queue before the
mature queue — and drops every queue entry of that frame, resetting its
access count and evictable flag. -/
theorem lruk_evict_returns_first_evictable (s : RState)
    (hreach : ∃ nf k ops, s = (RState.init nf k).applyOps ops) :
    (s.evict.1 = none ↔ ∀ e ∈ s.young ++ s.mature, s.evGet e.1 = false) ∧
    (∀ f s', s.evict = (some f, s') →
      s.evGet f = true ∧
      s'.young = s.young.filter (fun e => decide (e.1 ≠ f)) ∧
      s'.mature = s.mature.filter (fun e => decide (e.1 ≠ f)) ∧
      s'.ctGet f = 0 ∧
      s'.evGet f = false ∧
      ((∃ e ∈ s.young, e.1 = f ∧
          ∀ e' ∈ s.young, s.evGet e'.1 = true → e.2 ≤ e'.2) ∨
       ((∀ e ∈ s.young, s.evGet e.1 = false) ∧
        ∃ e ∈ s.mature, e.1 = f ∧
          ∀ e' ∈ s.mature, s.evGet e'.1 = true → e.2 ≤ e'.2))) := by
  obtain ⟨nf, k, ops, rfl⟩ := hreach
  exact evict_spec_of_wf _ (wf_applyOps _ _ (wf_init nf k))

/-- Witness for the amended C9 theorem at two concrete reachable states:
a fresh replacer where Evict fails, and a one-frame replacer with one
recorded access where Evict succeeds on frame 0. -/
theorem lruk_evict_witness :
    ((RState.init 2 2).applyOps []).evict.1 = none ∧
    ((RState.init 1 2).applyOps [ROp.record 0, ROp.setEv 0 true]).evGet 0 = true :=
  ⟨(lruk_evict_returns_first_evictable _ ⟨2, 2, [], rfl⟩).1.mpr (by decide),
   ((lruk_evict_returns_first_evictable _
      ⟨1, 2, [ROp.record 0, ROp.setEv 0 true], rfl⟩).2 0
      (RState.mk 2 1 [false] [0] [] [] 1 0) (by decide)).1⟩

/-- C9 counterexample to the claim as stated: after the single call
SetEvictable(0, true) on a fresh one-frame replacer, frame 0 is marked
evictable and Size() counts one evictable frame, yet Evict fails —
"Evict fails exactly when no frame is evictable" does not hold. -/
theorem evict_fails_with_evictable_flag_set :
    ((RState.init 1 2).applyOps [ROp.setEv 0 true]).evGet 0 = true ∧
    ((RState.init 1 2).applyOps [ROp.setEv 0 true]).currSize = 1 ∧
    ((RState.init 1 2).applyOps [ROp.setEv 0 true]).evict.1 = none := by
  decide

end BusTub
